import Mathlib

/-!
# Verification of the quotes NLP analysis pipeline

A shallow embedding of `NLP_analysis_script.py`: text is modelled as
`List Char`, the cleaning function `clean_text`, the whitespace tokenizer
(Python `str.split()`), the n-gram construction, and the five analyzers
H1–H5 are translated into executable Lean definitions, and the testable
properties of the specification are settled against them.
-/

namespace NLP

/-- Whitespace as matched by Python's `\s` / `str.split()` / `str.strip()`
(restricted to the ASCII whitespace characters; the inputs relevant here
contain no exotic Unicode spaces). -/
def isPySpace (c : Char) : Bool :=
  c == ' ' || c == '\t' || c == '\n' || c == '\x0d' || c == '\x0b' || c == '\x0c'

/-- Python `str.lower`, restricted to the ASCII range (A–Z ↦ a–z, other
characters unchanged), which is exact on the ASCII data the script handles. -/
def pyLower (c : Char) : Char :=
  if 65 ≤ c.toNat ∧ c.toNat ≤ 90 then Char.ofNat (c.toNat + 32) else c

/-- Membership in Python's `string.punctuation`: the 32 ASCII punctuation
characters, i.e. codepoints 33–47, 58–64, 91–96 and 123–126. -/
def isAsciiPunct (c : Char) : Bool :=
  (33 ≤ c.toNat && c.toNat ≤ 47) || (58 ≤ c.toNat && c.toNat ≤ 64) ||
  (91 ≤ c.toNat && c.toNat ≤ 96) || (123 ≤ c.toNat && c.toNat ≤ 126)

/-- Python `text.replace(c, "")` for a single-character pattern: delete every
occurrence of `c`. -/
def replaceDel (c : Char) (l : List Char) : List Char :=
  l.filter (fun d => d != c)

/-- One left-to-right pass of `re.sub(r"\s+", " ", text)`: the flag records
whether the previous character was whitespace (i.e. we are inside a run that
has already emitted its single space). -/
def collapseAux : Bool → List Char → List Char
  | _, [] => []
  | true, c :: rest =>
    if isPySpace c then collapseAux true rest
    else c :: collapseAux false rest
  | false, c :: rest =>
    if isPySpace c then ' ' :: collapseAux true rest
    else c :: collapseAux false rest

/-- Python `re.sub(r"\s+", " ", text)`: replace every maximal run of
whitespace by a single ASCII space. -/
def collapseWS (l : List Char) : List Char :=
  collapseAux false l

/-- Python `str.strip()` with no argument: drop leading and trailing
whitespace. -/
def pyStrip (l : List Char) : List Char :=
  ((l.dropWhile isPySpace).reverse.dropWhile isPySpace).reverse

/-- The six sequential `.replace(…, "")` calls of `clean_text`, in source
order: `“`, `”`, `‘`, `‘` again (the source repeats U+2018 and never removes
the right curly single quote U+2019), `"`, `'`. -/
def removeQuoteChars (l : List Char) : List Char :=
  replaceDel '\'' (replaceDel '"' (replaceDel '‘' (replaceDel '‘'
    (replaceDel '”' (replaceDel '“' l)))))

/-- `clean_text` on a non-null string: strip quote characters, collapse
whitespace, lowercase, delete ASCII punctuation, strip the ends. -/
def clean_text (l : List Char) : List Char :=
  pyStrip (((collapseWS (removeQuoteChars l)).map pyLower).filter
    (fun c => !(isAsciiPunct c)))

/-- `clean_text` including the `pd.isnull` guard: a missing value cleans to
the empty string. -/
def clean_text_of : Option (List Char) → List Char
  | none => []
  | some t => clean_text t

/-- One left-to-right pass of `str.split()`: `acc` holds the characters of
the word currently being read, in reverse. -/
def pySplitAux : List Char → List Char → List (List Char)
  | [], acc => if acc.isEmpty then [] else [acc.reverse]
  | c :: rest, acc =>
    if isPySpace c then
      if acc.isEmpty then pySplitAux rest []
      else acc.reverse :: pySplitAux rest []
    else pySplitAux rest (c :: acc)

/-- Python `str.split()` with no argument: the maximal runs of
non-whitespace characters, in order; empty strings never appear. -/
def pySplit (l : List Char) : List (List Char) :=
  pySplitAux l []

/-- Python `" ".join(strs)`. -/
def joinSp : List (List Char) → List Char
  | [] => []
  | [s] => s
  | s :: rest => s ++ ' ' :: joinSp rest

/-- Python substring containment `pat in l` (both already lowercased where
the script asks for case-insensitivity). -/
def containsSeq : List Char → List Char → Bool
  | [], pat => pat.isEmpty
  | c :: rest, pat => pat.isPrefixOf (c :: rest) || containsSeq rest pat

/-- A token: one whitespace-delimited unit of cleaned text. -/
abbrev Token := List Char

/-- One input row of `sample_data.csv` after the defensive fills: `quote`,
`author`, `tags`, each a string. -/
structure Row where
  quote : List Char
  author : List Char
  tags : List Char
deriving DecidableEq

/-- The distinct elements of a list, in first-encounter order (the key order
of a Python dict / `collections.Counter` built by a single left-to-right
pass). -/
def firstOccs {α : Type} [DecidableEq α] : List α → List α
  | [] => []
  | x :: xs => x :: (firstOccs xs).filter (fun y => decide (y ≠ x))

/-- `collections.Counter(l)` as an association list: each distinct element in
first-encounter order, paired with its number of occurrences. -/
def counterOf {α : Type} [DecidableEq α] (l : List α) : List (α × Nat) :=
  (firstOccs l).map (fun x => (x, l.countP (fun y => decide (y = x))))

/-- Insert `x` into a list already sorted by `key` descending, before the
first element whose key is `≤ key x` — the insertion step of a stable
descending sort. -/
def insertDesc {α : Type} (key : α → Nat) (x : α) : List α → List α
  | [] => [x]
  | y :: ys => if key y ≤ key x then x :: y :: ys else y :: insertDesc key x ys

/-- Python's `sorted(l, key=key, reverse=True)`: a stable sort by `key`
descending (elements with equal keys keep their relative order). -/
def sortDesc {α : Type} (key : α → Nat) : List α → List α
  | [] => []
  | x :: xs => insertDesc key x (sortDesc key xs)

/-- `Counter(l).most_common n`: entries sorted by count descending, ties
keeping first-encounter order (CPython's `most_common` uses
`heapq.nlargest`, which breaks ties by original position), truncated to `n`
entries. -/
def mostCommon {α : Type} [DecidableEq α] (n : Nat) (l : List α) : List (α × Nat) :=
  (sortDesc (fun e => e.2) (counterOf l)).take n

/-- The in-code motivational/positive word set of H1. -/
def motivational_words : List Token :=
  ["achieve", "believe", "brave", "commit", "courage", "create", "dedication",
   "dream", "effort", "faith", "focus", "goal", "grace", "gratitude", "grateful",
   "grow", "hope", "imagine", "inspire", "journey", "joy", "kindness", "learn",
   "love", "motivate", "passion", "persevere", "positive", "power", "progress",
   "resilience", "rise", "smile", "strength", "success", "trust", "will", "win"
  ].map String.data

/-- The second-person word set of H2. -/
def second_person_words : List Token :=
  ["you", "your", "yours", "yourself", "yourselves"].map String.data

/-- The positive-emotion word set of H3. -/
def positive_emotions : List Token :=
  ["love", "hope", "believe", "happy", "joy", "dream", "inspire", "grateful"
  ].map String.data

/-- The negative-emotion word set of H3. -/
def negative_emotions : List Token :=
  ["fear", "hate", "sad", "pain", "hurt", "fail", "alone", "lost"].map String.data

/-- The `cleaned_quote` column: `df["quote"].apply(clean_text)`. -/
def cleaned_quote (r : Row) : List Char := clean_text r.quote

/-- The corpus token stream:
`all_tokens = " ".join(df["cleaned_quote"]).split()`. -/
def all_tokens (rows : List Row) : List Token :=
  pySplit (joinSp (rows.map cleaned_quote))

/-- H1's filtered token stream: only motivational words kept. -/
def motivational_tokens (rows : List Row) : List Token :=
  (all_tokens rows).filter (fun t => decide (t ∈ motivational_words))

/-- H1's report: `Counter(motivational_tokens).most_common(20)`. -/
def h1_top (rows : List Row) : List (Token × Nat) :=
  mostCommon 20 (motivational_tokens rows)

/-- H2's row filter:
`df[df["tags"].fillna("").str.contains("inspirational", case=False)]`. -/
def inspirational_rows (rows : List Row) : List Row :=
  rows.filter (fun r => containsSeq (r.tags.map pyLower) "inspirational".data)

/-- H2's token stream: the matched rows' cleaned quotes joined and split. -/
def inspirational_tokens (rows : List Row) : List Token :=
  pySplit (joinSp ((inspirational_rows rows).map cleaned_quote))

/-- `second_person_count`: tokens of the matched subset lying in the
second-person set. -/
def second_person_count (rows : List Row) : Nat :=
  (inspirational_tokens rows).countP (fun w => decide (w ∈ second_person_words))

/-- `total_insp_tokens = len(inspirational_tokens)`. -/
def total_insp_tokens (rows : List Row) : Nat :=
  (inspirational_tokens rows).length

/-- `share = (second_person_count / total_insp_tokens) * 100 if
total_insp_tokens else 0.0`, with real arithmetic modelled in `ℚ`. -/
def h2_share (rows : List Row) : ℚ :=
  if total_insp_tokens rows = 0 then 0
  else ((second_person_count rows : ℚ) / (total_insp_tokens rows : ℚ)) * 100

/-- Rounding to `d` decimal places (the `round` builtin / `:.nf` formatting,
modelled in `ℚ` with round-half-up; the script's values never hit the exact
half-way cases where Python's bankers rounding differs). -/
def roundTo (d : Nat) (q : ℚ) : ℚ :=
  (round (q * (10 ^ d : ℚ)) : ℚ) / (10 ^ d : ℚ)

/-- The percentage as printed by H2's report (`f"{share:.2f}"`). -/
def h2_share_reported (rows : List Row) : ℚ :=
  roundTo 2 (h2_share rows)

/-- One update of H3's `author_emotion_counts` dict: create the author's
entry at zero if absent, then add this row's positive and negative counts. -/
def emoAdd (acc : List (List Char × Nat × Nat)) (a : List Char) (p n : Nat) :
    List (List Char × Nat × Nat) :=
  if acc.any (fun e => decide (e.1 = a)) then
    acc.map (fun e => if e.1 = a then (e.1, e.2.1 + p, e.2.2 + n) else e)
  else acc ++ [(a, p, n)]

/-- H3's accumulation loop over all rows: per-author positive and negative
emotion-word totals, authors in first-encounter order. -/
def author_emotion_counts (rows : List Row) : List (List Char × Nat × Nat) :=
  rows.foldl (fun acc r =>
    let ws := pySplit (cleaned_quote r)
    emoAdd acc r.author
      (ws.countP (fun w => decide (w ∈ positive_emotions)))
      (ws.countP (fun w => decide (w ∈ negative_emotions)))) []

/-- H3's report: authors sorted by `positive + negative` descending
(Python's stable `sorted(..., reverse=True)`), truncated to 5. -/
def ranked_authors (rows : List Row) : List (List Char × Nat × Nat) :=
  (sortDesc (fun e => e.2.1 + e.2.2) (author_emotion_counts rows)).take 5

/-- Python `zip` of three sequences: truncates at the shortest. -/
def zip3 {α β γ : Type} : List α → List β → List γ → List (α × β × γ)
  | a :: as, b :: bs, c :: cs => (a, b, c) :: zip3 as bs cs
  | _, _, _ => []

/-- `bigrams = list(zip(l, islice(l, 1, None)))`. -/
def bigramsOf {α : Type} (l : List α) : List (α × α) :=
  l.zip (l.drop 1)

/-- `trigrams = list(zip(l, islice(l, 1, None), islice(l, 2, None)))`. -/
def trigramsOf {α : Type} (l : List α) : List (α × α × α) :=
  zip3 l (l.drop 1) (l.drop 2)

/-- H4's report: top 10 bigrams of the corpus token stream. -/
def top_bigrams (rows : List Row) : List ((Token × Token) × Nat) :=
  mostCommon 10 (bigramsOf (all_tokens rows))

/-- H4's report: top 10 trigrams of the corpus token stream. -/
def top_trigrams (rows : List Row) : List ((Token × Token × Token) × Nat) :=
  mostCommon 10 (trigramsOf (all_tokens rows))

/-- H5's author selection `df["author"].value_counts().nlargest(5)`: the 5
authors with the most rows, counts descending, ties in first-seen order. -/
def top_authors (rows : List Row) : List (List Char) :=
  ((sortDesc (fun e => e.2) (counterOf (rows.map Row.author))).take 5).map
    Prod.fst

/-- H5: the words of one author's joined cleaned quotes,
`" ".join(df.loc[df["author"] == author, "cleaned_quote"]).split()`. -/
def authorWords (rows : List Row) (author : List Char) : List Token :=
  pySplit (joinSp
    ((rows.filter (fun r => decide (r.author = author))).map cleaned_quote))

/-- H5's per-author statistics `(total_words, unique_words, diversity)`:
words of the author's joined cleaned quotes, `len(words)`, `len(set(words))`,
and `round(unique / total, 3)` (`0.0` when `total` is `0`). -/
def author_vocab_stats (rows : List Row) (author : List Char) :
    Nat × Nat × ℚ :=
  let ws := authorWords rows author
  let total := ws.length
  let unique := (firstOccs ws).length
  let diversity := if total = 0 then (0 : ℚ) else (unique : ℚ) / (total : ℚ)
  (total, unique, roundTo 3 diversity)

/-- The rewritten output table: every row plus its `cleaned_quote` value. -/
def outputTable (rows : List Row) : List (Row × List Char) :=
  rows.map (fun r => (r, cleaned_quote r))

/-- Everything the script reports: the output table and the five analyzers'
results. -/
structure PipelineOut where
  table : List (Row × List Char)
  h1 : List (Token × Nat)
  h2_matched : Nat
  h2_count : Nat
  h2_total : Nat
  h2_pct : ℚ
  h3 : List (List Char × Nat × Nat)
  h4_bi : List ((Token × Token) × Nat)
  h4_tri : List ((Token × Token × Token) × Nat)
  h5 : List (List Char × Nat × Nat × ℚ)
deriving DecidableEq

/-- The whole pipeline as one function of the loaded table. -/
def pipelineResults (rows : List Row) : PipelineOut where
  table := outputTable rows
  h1 := h1_top rows
  h2_matched := (inspirational_rows rows).length
  h2_count := second_person_count rows
  h2_total := total_insp_tokens rows
  h2_pct := h2_share_reported rows
  h3 := ranked_authors rows
  h4_bi := top_bigrams rows
  h4_tri := top_trigrams rows
  h5 := (top_authors rows).map (fun a =>
    let s := author_vocab_stats rows a
    (a, s.1, s.2.1, s.2.2))

/-- Loader model of lines 45–50: `quote` with nulls filled as `""`, and
`df.get(col, "")` for each optional column — the column itself when present
in the file, otherwise the scalar `""` broadcast to every row. -/
def loadTable (quotes : List (Option (List Char)))
    (authorCol tagsCol : Option (List (List Char))) : List Row :=
  (List.range quotes.length).map (fun i =>
    { quote := ((quotes.getD i none).getD [])
      author := match authorCol with | some as => as.getD i [] | none => []
      tags := match tagsCol with | some ts => ts.getD i [] | none => [] })

/-! ## Character classes of cleaned text -/

/-- The five characters the `.replace` chain of `clean_text` deletes. Note
the right curly single quote `’` (U+2019) is *not* among them: the source
repeats U+2018. -/
def isQuoteChar (c : Char) : Bool :=
  c == '“' || c == '”' || c == '‘' || c == '"' || c == '\''

/-- Uppercase ASCII letters, the characters `str.lower` changes. -/
def isUpperAscii (c : Char) : Bool :=
  65 ≤ c.toNat && c.toNat ≤ 90

/-- The claim's removed-punctuation set: both curly double quotes, both
curly single quotes, both straight quotes, and all ASCII punctuation. -/
def isSpecRemovedChar (c : Char) : Bool :=
  c == '“' || c == '”' || c == '‘' || c == '’' || c == '"' || c == '\'' ||
  isAsciiPunct c

/-- Every whitespace character of `l` is a plain space. -/
def SpacesOk (l : List Char) : Prop :=
  ∀ c ∈ l, isPySpace c = true → c = ' '

/-- No two adjacent whitespace characters. -/
def NoTwoSpaces (l : List Char) : Prop :=
  List.Chain' (fun a b => ¬(isPySpace a = true ∧ isPySpace b = true)) l

/-- Neither end of `l` is whitespace. -/
def Stripped (l : List Char) : Prop :=
  (∀ c, l.head? = some c → isPySpace c = false) ∧
  (∀ c, l.getLast? = some c → isPySpace c = false)

/-- No removed quote character, no ASCII punctuation, no uppercase ASCII. -/
def CharsClean (l : List Char) : Prop :=
  ∀ c ∈ l, isQuoteChar c = false ∧ isAsciiPunct c = false ∧
    isUpperAscii c = false

theorem isQuoteChar_eq_false_of_range {c : Char} (h1 : 97 ≤ c.toNat)
    (h2 : c.toNat ≤ 122) : isQuoteChar c = false := by
  simp only [isQuoteChar, Bool.or_eq_false_iff, beq_eq_false_iff_ne, ne_eq]
  refine ⟨⟨⟨⟨?_, ?_⟩, ?_⟩, ?_⟩, ?_⟩ <;> rintro rfl <;> revert h1 h2 <;> decide

theorem isPySpace_eq_false_of_range {c : Char} (h1 : 97 ≤ c.toNat)
    (h2 : c.toNat ≤ 122) : isPySpace c = false := by
  simp only [isPySpace, Bool.or_eq_false_iff, beq_eq_false_iff_ne, ne_eq]
  refine ⟨⟨⟨⟨⟨?_, ?_⟩, ?_⟩, ?_⟩, ?_⟩, ?_⟩ <;> rintro rfl <;>
    revert h1 h2 <;> decide

theorem isUpperAscii_eq_false_of_range {c : Char} (h1 : 97 ≤ c.toNat)
    (h2 : c.toNat ≤ 122) : isUpperAscii c = false := by
  simp only [isUpperAscii, Bool.and_eq_false_iff,
    decide_eq_false_iff_not, not_le]
  omega

theorem toNat_ofNat_valid {n : Nat} (h : n < 55296) :
    (Char.ofNat n).toNat = n := by
  have hv : n.isValidChar := Or.inl h
  rw [Char.ofNat, dif_pos hv]
  rfl

/-- `pyLower` either fixes its argument (which then was not uppercase ASCII)
or produces a lowercase ASCII letter. -/
theorem pyLower_cases (c : Char) :
    (isUpperAscii c = false ∧ pyLower c = c) ∨
    (97 ≤ (pyLower c).toNat ∧ (pyLower c).toNat ≤ 122) := by
  by_cases h : 65 ≤ c.toNat ∧ c.toNat ≤ 90
  · right
    have hlt : c.toNat + 32 < 55296 := by omega
    simp only [pyLower, if_pos h, toNat_ofNat_valid hlt]
    omega
  · left
    constructor
    · simp only [isUpperAscii, Bool.and_eq_false_iff,
        decide_eq_false_iff_not, not_le]
      omega
    · simp only [pyLower, if_neg h]

theorem pyLower_eq_self {c : Char} (h : isUpperAscii c = false) :
    pyLower c = c := by
  simp only [isUpperAscii, Bool.and_eq_false_iff,
    decide_eq_false_iff_not, not_le] at h
  simp only [pyLower, ite_eq_right_iff]
  omega

/-! ## Lemmas on the whitespace collapse -/

theorem mem_collapseAux {d : Char} :
    ∀ (b : Bool) (l : List Char), d ∈ collapseAux b l → d = ' ' ∨ d ∈ l
  | true, [], h => by simp [collapseAux] at h
  | false, [], h => by simp [collapseAux] at h
  | true, c :: rest, h => by
    by_cases hc : isPySpace c
    · simp only [collapseAux, hc, if_true] at h
      rcases mem_collapseAux true rest h with h' | h'
      · exact Or.inl h'
      · exact Or.inr (List.mem_cons_of_mem _ h')
    · simp only [collapseAux, hc, if_false] at h
      rcases List.mem_cons.mp h with h' | h'
      · exact Or.inr (h' ▸ List.mem_cons_self _ _)
      · rcases mem_collapseAux false rest h' with h'' | h''
        · exact Or.inl h''
        · exact Or.inr (List.mem_cons_of_mem _ h'')
  | false, c :: rest, h => by
    by_cases hc : isPySpace c
    · simp only [collapseAux, hc, if_true] at h
      rcases List.mem_cons.mp h with h' | h'
      · exact Or.inl h'
      · rcases mem_collapseAux true rest h' with h'' | h''
        · exact Or.inl h''
        · exact Or.inr (List.mem_cons_of_mem _ h'')
    · simp only [collapseAux, hc, if_false] at h
      rcases List.mem_cons.mp h with h' | h'
      · exact Or.inr (h' ▸ List.mem_cons_self _ _)
      · rcases mem_collapseAux false rest h' with h'' | h''
        · exact Or.inl h''
        · exact Or.inr (List.mem_cons_of_mem _ h'')

/-- Every whitespace character the collapse outputs is the plain space it
inserts. -/
theorem spacesOk_collapseAux :
    ∀ (b : Bool) (l : List Char), SpacesOk (collapseAux b l)
  | true, [] => by intro c hc; simp [collapseAux] at hc
  | false, [] => by intro c hc; simp [collapseAux] at hc
  | true, c :: rest => by
    intro d hd hsp
    by_cases hc : isPySpace c
    · simp only [collapseAux, hc, if_true] at hd
      exact spacesOk_collapseAux true rest d hd hsp
    · simp only [collapseAux, hc, if_false] at hd
      rcases List.mem_cons.mp hd with h' | h'
      · exact absurd (h' ▸ hsp) (by simp [hc])
      · exact spacesOk_collapseAux false rest d h' hsp
  | false, c :: rest => by
    intro d hd hsp
    by_cases hc : isPySpace c
    · simp only [collapseAux, hc, if_true] at hd
      rcases List.mem_cons.mp hd with h' | h'
      · exact h'
      · exact spacesOk_collapseAux true rest d h' hsp
    · simp only [collapseAux, hc, if_false] at hd
      rcases List.mem_cons.mp hd with h' | h'
      · exact absurd (h' ▸ hsp) (by simp [hc])
      · exact spacesOk_collapseAux false rest d h' hsp

/-- After the collapse has just emitted a space (flag `true`), the next
output character is not whitespace. -/
theorem collapseAux_true_head :
    ∀ (l : List Char) (c : Char), (collapseAux true l).head? = some c →
      isPySpace c = false
  | [], c, h => by simp [collapseAux] at h
  | d :: rest, c, h => by
    by_cases hd : isPySpace d
    · simp only [collapseAux, hd, if_true] at h
      exact collapseAux_true_head rest c h
    · simp only [collapseAux, hd, Bool.false_eq_true, if_false,
        List.head?_cons, Option.some_inj] at h
      subst h
      simpa using hd

theorem noTwoSpaces_collapseAux :
    ∀ (b : Bool) (l : List Char), NoTwoSpaces (collapseAux b l)
  | true, [] => by simp [collapseAux, NoTwoSpaces]
  | false, [] => by simp [collapseAux, NoTwoSpaces]
  | true, c :: rest => by
    by_cases hc : isPySpace c
    · simpa only [collapseAux, hc, if_true] using
        noTwoSpaces_collapseAux true rest
    · simp only [collapseAux, hc, Bool.false_eq_true, if_false, NoTwoSpaces]
      rw [List.chain'_cons']
      refine ⟨fun y _ => ?_, noTwoSpaces_collapseAux false rest⟩
      simp [hc]
  | false, c :: rest => by
    by_cases hc : isPySpace c
    · simp only [collapseAux, hc, if_true, NoTwoSpaces]
      rw [List.chain'_cons']
      refine ⟨fun y hy => ?_, noTwoSpaces_collapseAux true rest⟩
      have := collapseAux_true_head rest y hy
      simp [this]
    · simp only [collapseAux, hc, Bool.false_eq_true, if_false, NoTwoSpaces]
      rw [List.chain'_cons']
      refine ⟨fun y _ => ?_, noTwoSpaces_collapseAux false rest⟩
      simp [hc]

/-- If the head of `l` is not whitespace (or `l` is empty), the run flag is
irrelevant. -/
theorem collapseAux_true_eq_false
    (l : List Char) (h : ∀ c, l.head? = some c → isPySpace c = false) :
    collapseAux true l = collapseAux false l := by
  cases l with
  | nil => rfl
  | cons c rest =>
    have := h c rfl
    simp [collapseAux, this]

theorem collapseAux_eq_self :
    ∀ (l : List Char), SpacesOk l → NoTwoSpaces l → collapseAux false l = l
  | [], _, _ => rfl
  | c :: rest, hs, hn => by
    have htail : NoTwoSpaces rest := List.Chain'.tail hn
    have hrest : SpacesOk rest := fun d hd => hs d (List.mem_cons_of_mem _ hd)
    by_cases hc : isPySpace c
    · have hcsp : c = ' ' := hs c (List.mem_cons_self _ _) hc
      have hhead : ∀ d, rest.head? = some d → isPySpace d = false := by
        intro d hd
        rw [NoTwoSpaces, List.chain'_cons'] at hn
        have := hn.1 d hd
        by_contra hcon
        simp only [Bool.not_eq_false] at hcon
        exact this ⟨hc, hcon⟩
      subst hcsp
      simp only [collapseAux, hc, if_true]
      rw [collapseAux_true_eq_false rest hhead,
        collapseAux_eq_self rest hrest htail]
    · simp only [collapseAux, hc, Bool.false_eq_true, if_false]
      rw [collapseAux_eq_self rest hrest htail]

/-! ## Lemmas on stripping -/

theorem head?_dropWhile {α : Type} {p : α → Bool} :
    ∀ (l : List α) (c : α), (l.dropWhile p).head? = some c → p c = false
  | [], c, h => by simp at h
  | d :: rest, c, h => by
    by_cases hd : p d
    · rw [List.dropWhile_cons_of_pos hd] at h
      exact head?_dropWhile rest c h
    · rw [List.dropWhile_cons_of_neg hd, List.head?_cons,
        Option.some_inj] at h
      subst h
      simpa using hd

theorem dropWhile_eq_self_of_head {α : Type} {p : α → Bool} {l : List α}
    (h : ∀ c, l.head? = some c → p c = false) : l.dropWhile p = l := by
  cases l with
  | nil => rfl
  | cons c rest =>
    have := h c rfl
    exact List.dropWhile_cons_of_neg (by simp [this])

theorem chain'_dropWhile {α : Type} {R : α → α → Prop} {p : α → Bool} :
    ∀ (l : List α), List.Chain' R l → List.Chain' R (l.dropWhile p)
  | [], h => h
  | c :: rest, h => by
    by_cases hc : p c
    · rw [List.dropWhile_cons_of_pos hc]
      exact chain'_dropWhile rest h.tail
    · rwa [List.dropWhile_cons_of_neg hc]

theorem mem_pyStrip {d : Char} {l : List Char} (h : d ∈ pyStrip l) :
    d ∈ l := by
  simp only [pyStrip, List.mem_reverse] at h
  have h1 := (List.dropWhile_suffix isPySpace).sublist.subset h
  rw [List.mem_reverse] at h1
  exact (List.dropWhile_suffix isPySpace).sublist.subset h1

theorem pyStrip_head {l : List Char} :
    ∀ c, (pyStrip l).head? = some c → isPySpace c = false := by
  intro c h
  set m := l.dropWhile isPySpace with hm
  have hdec : m.reverse.takeWhile isPySpace ++ m.reverse.dropWhile isPySpace
      = m.reverse := List.takeWhile_append_dropWhile _ _
  have hsplit : m = (m.reverse.dropWhile isPySpace).reverse ++
      (m.reverse.takeWhile isPySpace).reverse := by
    have := congrArg List.reverse hdec
    rw [List.reverse_append, List.reverse_reverse] at this
    exact this.symm
  have hps : pyStrip l = (m.reverse.dropWhile isPySpace).reverse := rfl
  have hhead : m.head? = some c := by
    rw [hsplit, List.head?_append, ← hps, h]
    rfl
  exact head?_dropWhile l c hhead

theorem pyStrip_last {l : List Char} :
    ∀ c, (pyStrip l).getLast? = some c → isPySpace c = false := by
  intro c h
  rw [pyStrip, List.getLast?_reverse] at h
  exact head?_dropWhile _ c h

theorem stripped_pyStrip (l : List Char) : Stripped (pyStrip l) :=
  ⟨pyStrip_head, pyStrip_last⟩

theorem pyStrip_eq_self {l : List Char} (h : Stripped l) : pyStrip l = l := by
  rw [pyStrip, dropWhile_eq_self_of_head (fun c hc => h.1 c hc)]
  rw [dropWhile_eq_self_of_head (fun c hc => h.2 c (by rwa [List.head?_reverse] at hc))]
  exact List.reverse_reverse l

theorem noTwoSpaces_pyStrip {l : List Char} (h : NoTwoSpaces l) :
    NoTwoSpaces (pyStrip l) := by
  rw [NoTwoSpaces] at h ⊢
  rw [pyStrip]
  have h1 := chain'_dropWhile (p := isPySpace) l h
  have h2 : List.Chain' (flip fun a b => ¬(isPySpace a = true ∧ isPySpace b = true))
      (l.dropWhile isPySpace).reverse := by
    rw [List.chain'_reverse]
    exact h1.imp (fun a b hab => by
      simp only [flip] at *
      tauto)
  have h3 := chain'_dropWhile (p := isPySpace) _ h2
  rw [List.chain'_reverse]
  exact h3.imp (fun a b hab => by
    simp only [flip] at *
    tauto)

/-! ## The normal form produced by `clean_text` -/

theorem map_eq_self_of {α : Type} {f : α → α} :
    ∀ {l : List α}, (∀ a ∈ l, f a = a) → l.map f = l
  | [], _ => rfl
  | a :: l, h => by
    rw [List.map_cons, h a (List.mem_cons_self _ _),
      map_eq_self_of (fun b hb => h b (List.mem_cons_of_mem _ hb))]

theorem replaceDel_eq_self {c : Char} {l : List Char}
    (h : ∀ d ∈ l, d ≠ c) : replaceDel c l = l :=
  List.filter_eq_self.mpr (fun d hd => by simpa using h d hd)

theorem mem_replaceDel {c d : Char} {l : List Char} (h : d ∈ replaceDel c l) :
    d ∈ l ∧ d ≠ c := by
  rw [replaceDel, List.mem_filter] at h
  exact ⟨h.1, by simpa using h.2⟩

theorem mem_removeQuoteChars {d : Char} {l : List Char}
    (h : d ∈ removeQuoteChars l) : d ∈ l ∧ isQuoteChar d = false := by
  rw [removeQuoteChars] at h
  obtain ⟨h, h1⟩ := mem_replaceDel h
  obtain ⟨h, h2⟩ := mem_replaceDel h
  obtain ⟨h, h3⟩ := mem_replaceDel h
  obtain ⟨h, h4⟩ := mem_replaceDel h
  obtain ⟨h, h5⟩ := mem_replaceDel h
  obtain ⟨h, h6⟩ := mem_replaceDel h
  refine ⟨h, ?_⟩
  simp only [isQuoteChar, Bool.or_eq_false_iff, beq_eq_false_iff_ne, ne_eq]
  tauto

theorem removeQuoteChars_eq_self {l : List Char} (h : CharsClean l) :
    removeQuoteChars l = l := by
  have hq : ∀ d ∈ l, isQuoteChar d = false := fun d hd => (h d hd).1
  have h1 : replaceDel '\u201c' l = l := replaceDel_eq_self (fun d hd => by
    have := hq d hd; simp [isQuoteChar] at this; tauto)
  have h2 : replaceDel '\u201d' l = l := replaceDel_eq_self (fun d hd => by
    have := hq d hd; simp [isQuoteChar] at this; tauto)
  have h3 : replaceDel '\u2018' l = l := replaceDel_eq_self (fun d hd => by
    have := hq d hd; simp [isQuoteChar] at this; tauto)
  have h4 : replaceDel '\u0022' l = l := replaceDel_eq_self (fun d hd => by
    have := hq d hd; simp [isQuoteChar] at this; tauto)
  have h5 : replaceDel '\u0027' l = l := replaceDel_eq_self (fun d hd => by
    have := hq d hd; simp [isQuoteChar] at this; tauto)
  rw [removeQuoteChars, h1, h2, h3, h3, h4, h5]

/-- Every character of a `clean_text` output is a non-quote, non-punctuation,
non-uppercase character, and whitespace only as a plain space. -/
theorem clean_text_chars (s : List Char) :
    CharsClean (clean_text s) ∧ SpacesOk (clean_text s) := by
  constructor
  · intro c hc
    have hmem := mem_pyStrip hc
    rw [List.mem_filter] at hmem
    obtain ⟨hmap, hpunct⟩ := hmem
    rw [List.mem_map] at hmap
    obtain ⟨d, hd, hdc⟩ := hmap
    have hpunct' : isAsciiPunct c = false := by simpa using hpunct
    refine ⟨?_, hpunct', ?_⟩
    · rcases pyLower_cases d with ⟨_, heq⟩ | ⟨h1, h2⟩
      · rw [← hdc, heq]
        rcases mem_collapseAux false _ (by exact hd) with hsp | hmem'
        · subst hsp; decide
        · exact (mem_removeQuoteChars hmem').2
      · exact isQuoteChar_eq_false_of_range (hdc ▸ h1) (hdc ▸ h2)
    · rcases pyLower_cases d with ⟨hup, heq⟩ | ⟨h1, h2⟩
      · rw [← hdc, heq]; exact hup
      · exact isUpperAscii_eq_false_of_range (hdc ▸ h1) (hdc ▸ h2)
  · intro c hc hsp
    have hmem := mem_pyStrip hc
    rw [List.mem_filter] at hmem
    obtain ⟨hmap, _⟩ := hmem
    rw [List.mem_map] at hmap
    obtain ⟨d, hd, hdc⟩ := hmap
    rcases pyLower_cases d with ⟨_, heq⟩ | ⟨h1, h2⟩
    · rw [← hdc, heq] at hsp ⊢
      exact spacesOk_collapseAux false _ d hd hsp
    · rw [isPySpace_eq_false_of_range (hdc ▸ h1) (hdc ▸ h2)] at hsp
      cases hsp

/-- On a string that is already in normal form, `clean_text` is the
identity. -/
theorem clean_text_eq_self {l : List Char} (hc : CharsClean l)
    (hs : SpacesOk l) (hn : NoTwoSpaces l) (hst : Stripped l) :
    clean_text l = l := by
  rw [clean_text, collapseWS, removeQuoteChars_eq_self hc,
    collapseAux_eq_self l hs hn,
    map_eq_self_of (fun a ha => pyLower_eq_self (hc a ha).2.2),
    List.filter_eq_self.mpr (fun a ha => by simp [(hc a ha).2.1]),
    pyStrip_eq_self hst]

/-- Applying `clean_text` to a string whose characters are already clean
yields a string with no double spaces and no whitespace at the ends. -/
theorem clean_text_post {z : List Char} (hc : CharsClean z) :
    NoTwoSpaces (clean_text z) ∧ Stripped (clean_text z) := by
  have hrq : removeQuoteChars z = z := removeQuoteChars_eq_self hc
  have hmap : (collapseAux false z).map pyLower = collapseAux false z :=
    map_eq_self_of (fun a ha => by
      rcases mem_collapseAux false z ha with hsp | hmem
      · subst hsp; decide
      · exact pyLower_eq_self (hc a hmem).2.2)
  have hfil : (collapseAux false z).filter (fun c => !(isAsciiPunct c)) =
      collapseAux false z :=
    List.filter_eq_self.mpr (fun a ha => by
      rcases mem_collapseAux false z ha with hsp | hmem
      · subst hsp; decide
      · simp [(hc a hmem).2.1])
  have hct : clean_text z = pyStrip (collapseAux false z) := by
    rw [clean_text, collapseWS, hrq, hmap, hfil]
  rw [hct]
  exact ⟨noTwoSpaces_pyStrip (noTwoSpaces_collapseAux false z),
    stripped_pyStrip _⟩

/-! ## Claim C1 -/

/-- C1, counterexample: on the input `don’t . stop` the output of
`clean_text` still contains a character of the claim's removed-punctuation
set (the right curly single quote U+2019, which the source never deletes)
and contains two consecutive spaces (deleting the `.` of `a . b`-shaped text
after whitespace collapsing merges the two surrounding spaces into a run).
So the claim is false as stated. -/
theorem c1_counterexample :
    (clean_text "don’t . stop".data).any isSpecRemovedChar = true ∧
    containsSeq (clean_text "don’t . stop".data) (' ' :: ' ' :: []) = true := by
  constructor
  · decide
  · decide

/-- C1, amended: for every input string, the output of `clean_text` contains
no character of the set the code actually removes — the curly double quotes,
the left curly single quote U+2018, the straight double and single quotes,
and every ASCII punctuation character. (The right curly single quote U+2019
can survive, and runs of two or more spaces can appear where punctuation
stood surrounded by spaces.) -/
theorem c1_clean_text_no_removed_chars (s : List Char) :
    (clean_text s).all (fun c => !(isQuoteChar c) && !(isAsciiPunct c)) = true := by
  rw [List.all_eq_true]
  intro c hc
  obtain ⟨h1, h2, _⟩ := (clean_text_chars s).1 c hc
  simp [h1, h2]

/-! ## Claim C2 -/

/-- C2, counterexample: `clean_text` is not idempotent. On `a . b` the first
application yields `a  b` (double space left where the deleted `.` stood),
and the second application collapses it to `a b`. -/
theorem c2_counterexample :
    clean_text (clean_text "a . b".data) ≠ clean_text "a . b".data := by
  decide

/-- On a string with clean characters — in particular on any `clean_text`
output — a further `clean_text` application is a fixed point. -/
theorem clean_text_idem_of_charsClean (z : List Char) (hc : CharsClean z) :
    clean_text (clean_text z) = clean_text z := by
  refine clean_text_eq_self ?_ ?_ ?_ ?_
  · exact (clean_text_chars z).1
  · exact (clean_text_chars z).2
  · exact (clean_text_post hc).1
  · exact (clean_text_post hc).2

/-- C2, amended: `clean_text` is idempotent from the second application
onwards: for every input string `s`,
`clean_text (clean_text (clean_text s)) = clean_text (clean_text s)`.
(One application need not be a fixed point, as the counterexample shows.) -/
theorem c2_clean_text_idem_from_second (s : List Char) :
    clean_text (clean_text (clean_text s)) = clean_text (clean_text s) :=
  clean_text_idem_of_charsClean (clean_text s) (clean_text_chars s).1

/-! ## Claim C5: n-gram shapes -/

theorem zip3_length {α β γ : Type} :
    ∀ (as : List α) (bs : List β) (cs : List γ),
      (zip3 as bs cs).length = min as.length (min bs.length cs.length)
  | [], bs, cs => by simp [zip3]
  | a :: as, [], cs => by simp [zip3]
  | a :: as, b :: bs, [] => by simp [zip3]
  | a :: as, b :: bs, c :: cs => by
    simp only [zip3, List.length_cons, zip3_length as bs cs]
    omega

theorem zip3_getElem? {α β γ : Type} :
    ∀ (as : List α) (bs : List β) (cs : List γ) (i : Nat),
      (zip3 as bs cs)[i]? = as[i]?.bind (fun a =>
        bs[i]?.bind (fun b => cs[i]?.map (fun c => (a, b, c))))
  | [], bs, cs, i => by simp [zip3]
  | a :: as, [], cs, i => by simp [zip3]
  | a :: as, b :: bs, [], i => by simp [zip3]
  | a :: as, b :: bs, c :: cs, 0 => by simp [zip3]
  | a :: as, b :: bs, c :: cs, i + 1 => by
    simp only [zip3, List.getElem?_cons_succ]
    exact zip3_getElem? as bs cs i

theorem zip_getElem? {α β : Type} :
    ∀ (as : List α) (bs : List β) (i : Nat),
      (as.zip bs)[i]? = as[i]?.bind (fun a => bs[i]?.map (fun b => (a, b)))
  | [], bs, i => by simp
  | a :: as, [], i => by simp
  | a :: as, b :: bs, 0 => by simp
  | a :: as, b :: bs, i + 1 => by
    simp only [List.zip_cons_cons, List.getElem?_cons_succ]
    exact zip_getElem? as bs i

/-- C5: for a token sequence of length `n` the bigram list has `n - 1`
entries and the trigram list has `n - 2` entries (`Nat` subtraction, so `0`
when `n < 2` resp. `n < 3`), and the `i`-th bigram/trigram is exactly the
tuple of consecutive tokens starting at position `i`. -/
theorem c5_ngram_shapes {α : Type} (l : List α) (i : Nat) :
    (bigramsOf l).length = l.length - 1 ∧
    (trigramsOf l).length = l.length - 2 ∧
    (bigramsOf l)[i]? =
      l[i]?.bind (fun a => l[i + 1]?.map (fun b => (a, b))) ∧
    (trigramsOf l)[i]? =
      l[i]?.bind (fun a => l[i + 1]?.bind (fun b =>
        l[i + 2]?.map (fun c => (a, b, c)))) := by
  refine ⟨?_, ?_, ?_, ?_⟩
  · rw [bigramsOf, List.length_zip, List.length_drop]
    omega
  · rw [trigramsOf, zip3_length, List.length_drop, List.length_drop]
    omega
  · rw [bigramsOf, zip_getElem?, List.getElem?_drop]
    simp [Nat.add_comm]
  · rw [trigramsOf, zip3_getElem?, List.getElem?_drop, List.getElem?_drop]
    simp [Nat.add_comm]

/-! ## Claim C8: tokenizing the space-joined corpus -/

theorem pySplitAux_append_space :
    ∀ (a b acc : List Char),
      pySplitAux (a ++ ' ' :: b) acc = pySplitAux a acc ++ pySplitAux b []
  | [], b, acc => by
    by_cases h : acc.isEmpty <;>
      simp [pySplitAux, h, (by decide : isPySpace ' ' = true)]
  | c :: a', b, acc => by
    by_cases hc : isPySpace c
    · by_cases h : acc.isEmpty <;>
        simp [pySplitAux, hc, h, pySplitAux_append_space a' b []]
    · simp [pySplitAux, hc, pySplitAux_append_space a' b (c :: acc)]

/-- Tokenizing the `" ".join` of a list of strings yields exactly the
concatenation of the per-string token lists. -/
theorem pySplit_joinSp :
    ∀ strs : List (List Char),
      pySplit (joinSp strs) = (strs.map pySplit).flatten
  | [] => rfl
  | [s] => by simp [joinSp, pySplit]
  | s :: s' :: rest => by
    have hj : joinSp (s :: s' :: rest) = s ++ ' ' :: joinSp (s' :: rest) := rfl
    rw [pySplit, hj, pySplitAux_append_space]
    rw [List.map_cons, List.flatten_cons, ← pySplit, ← pySplit,
      pySplit_joinSp (s' :: rest)]

/-- C8: splitting the single-space-joined corpus gives exactly the
concatenation of the per-record token sequences (no separator token), and
consequently corpus bigrams can pair the last token of one record with the
first token of the next: on the two records `a b` and `c d`, the bigram
`(b, c)` appears even though it spans the record boundary. -/
theorem c8_tokenize_join_no_boundary (strs : List (List Char)) :
    pySplit (joinSp strs) = (strs.map pySplit).flatten ∧
    bigramsOf (pySplit (joinSp ["a b".data, "c d".data])) =
      [("a".data, "b".data), ("b".data, "c".data), ("c".data, "d".data)] := by
  refine ⟨pySplit_joinSp strs, ?_⟩
  decide

/-! ## The stable descending sort -/

theorem insertDesc_perm {α : Type} (key : α → Nat) (x : α) :
    ∀ l : List α, (insertDesc key x l).Perm (x :: l)
  | [] => List.Perm.refl _
  | y :: ys => by
    rw [insertDesc]
    by_cases h : key y ≤ key x
    · rw [if_pos h]
    · rw [if_neg h]
      exact ((insertDesc_perm key x ys).cons y).trans (List.Perm.swap x y ys)

theorem sortDesc_perm {α : Type} (key : α → Nat) :
    ∀ l : List α, (sortDesc key l).Perm l
  | [] => List.Perm.refl _
  | x :: xs =>
    (insertDesc_perm key x (sortDesc key xs)).trans
      ((sortDesc_perm key xs).cons x)

theorem insertDesc_sorted {α : Type} {key : α → Nat} {x : α} :
    ∀ {l : List α}, l.Pairwise (fun a b => key b ≤ key a) →
      (insertDesc key x l).Pairwise (fun a b => key b ≤ key a)
  | [], _ => List.pairwise_singleton _ _
  | y :: ys, h => by
    rw [insertDesc]
    rw [List.pairwise_cons] at h
    by_cases hle : key y ≤ key x
    · rw [if_pos hle, List.pairwise_cons]
      refine ⟨?_, List.pairwise_cons.mpr h⟩
      intro z hz
      rcases List.mem_cons.mp hz with rfl | hz'
      · exact hle
      · exact le_trans (h.1 z hz') hle
    · rw [if_neg hle, List.pairwise_cons]
      refine ⟨?_, insertDesc_sorted h.2⟩
      intro z hz
      rcases List.mem_cons.mp ((insertDesc_perm key x ys).mem_iff.mp hz) with
        rfl | hz'
      · exact le_of_lt (lt_of_not_le hle)
      · exact h.1 z hz'

theorem sortDesc_sorted {α : Type} (key : α → Nat) :
    ∀ l : List α, (sortDesc key l).Pairwise (fun a b => key b ≤ key a)
  | [] => List.Pairwise.nil
  | x :: xs => insertDesc_sorted (sortDesc_sorted key xs)

/-- Stability of the insertion step, phrased through filtering at one key
value: inserting `x` leaves the subsequence of elements with key `c`
unchanged, except that when `key x = c` the new element lands in front (all
skipped elements have a strictly larger key). -/
theorem filter_insertDesc {α : Type} (key : α → Nat) (c : Nat) (x : α) :
    ∀ l : List α,
      (insertDesc key x l).filter (fun e => decide (key e = c)) =
        if key x = c then
          x :: l.filter (fun e => decide (key e = c))
        else l.filter (fun e => decide (key e = c))
  | [] => by
    by_cases h : key x = c <;> simp [insertDesc, h]
  | y :: ys => by
    rw [insertDesc]
    by_cases hle : key y ≤ key x
    · rw [if_pos hle]
      by_cases h : key x = c <;> simp [List.filter_cons, h]
    · rw [if_neg hle]
      rw [List.filter_cons, List.filter_cons, filter_insertDesc key c x ys]
      by_cases h : key x = c
      · have hyc : ¬(key y = c) := by omega
        simp [h, hyc]
      · by_cases hy : key y = c <;> simp [h, hy]

/-- Stability of the whole sort: for each key value `c`, the subsequence of
elements whose key is `c` is exactly the same, in the same order, before and
after sorting. -/
theorem filter_sortDesc {α : Type} (key : α → Nat) (c : Nat) :
    ∀ l : List α,
      (sortDesc key l).filter (fun e => decide (key e = c)) =
        l.filter (fun e => decide (key e = c))
  | [] => rfl
  | x :: xs => by
    rw [sortDesc, filter_insertDesc, List.filter_cons,
      filter_sortDesc key c xs]
    by_cases h : key x = c <;> simp [h]

/-! ## Claim C4: H1's top list is sorted and stable -/

/-- C4: H1's reported top-20 list is non-increasing by count; for every
count value `c`, the entries of the report with count `c` form an initial
segment (in identical order) of the entries with count `c` of
`counterOf (motivational_tokens rows)`, whose keys are by construction the
distinct motivational tokens in first-encounter order — i.e. ties keep
first-encounter order. -/
theorem c4_h1_top_sorted_stable (rows : List Row) (c : Nat) :
    (h1_top rows).Pairwise (fun a b => b.2 ≤ a.2) ∧
    (∃ t, (counterOf (motivational_tokens rows)).filter
        (fun e => decide (e.2 = c)) =
      (h1_top rows).filter (fun e => decide (e.2 = c)) ++ t) ∧
    (counterOf (motivational_tokens rows)).map Prod.fst =
      firstOccs (motivational_tokens rows) := by
  refine ⟨?_, ?_, ?_⟩
  · exact List.Pairwise.sublist (List.take_sublist _ _)
      (sortDesc_sorted (fun e => e.2) (counterOf (motivational_tokens rows)))
  · refine ⟨(List.drop 20 (sortDesc (fun e => e.2)
      (counterOf (motivational_tokens rows)))).filter
        (fun e => decide (e.2 = c)), ?_⟩
    simp only [h1_top, mostCommon]
    rw [← List.filter_append, List.take_append_drop]
    exact (filter_sortDesc (fun e => e.2) c
      (counterOf (motivational_tokens rows))).symm
  · rw [counterOf, List.map_map]
    exact map_eq_self_of (fun a _ => rfl)

/-! ## Claim C3: zero-emotion authors in H3's top 5 -/

/-- A convenience constructor for test rows without tags. -/
def mkRow (q a : String) : Row :=
  { quote := q.data, author := a.data, tags := [] }

/-- Five rows by five distinct authors; only author `a` uses an emotion
word. -/
def rows5 : List Row :=
  [mkRow "love" "a", mkRow "stone" "b", mkRow "stone" "c",
   mkRow "stone" "d", mkRow "stone" "e"]

/-- C3, counterexample: `rows5` has five distinct authors (so not "fewer
than 5"), yet author `e`, whose positive and negative counts are both zero,
appears in the reported top-5 — `sorted(...)[:5]` keeps zero-count authors
whenever fewer than 5 authors have nonzero totals. -/
theorem c3_counterexample :
    (firstOccs (rows5.map Row.author)).length = 5 ∧
    ("e".data, 0, 0) ∈ ranked_authors rows5 := by
  constructor
  · decide
  · decide

/-- In a list sorted descending by `key`, if at least `k` elements have a
positive key then every element of the first `k` has a positive key. -/
theorem take_pos_of_sorted {α : Type} {key : α → Nat} :
    ∀ (l : List α) (k : Nat),
      l.Pairwise (fun a b => key b ≤ key a) →
      k ≤ l.countP (fun e => decide (0 < key e)) →
      ∀ e ∈ l.take k, 0 < key e
  | [], _, _, _ => by simp
  | x :: xs, 0, _, _ => by simp
  | x :: xs, k + 1, hp, hcnt => by
    rw [List.pairwise_cons] at hp
    have hx : 0 < key x := by
      by_contra hx0
      have hall : ∀ e ∈ xs, ¬(0 < key e) := fun e he => by
        have := hp.1 e he
        omega
      have h0 : xs.countP (fun e => decide (0 < key e)) = 0 := by
        rw [List.countP_eq_zero]
        intro e he
        simpa using hall e he
      rw [List.countP_cons] at hcnt
      simp only [h0] at hcnt
      simp only [decide_eq_true_eq] at hcnt
      rw [if_neg hx0] at hcnt
      omega
    intro e he
    rw [List.take_succ_cons, List.mem_cons] at he
    rcases he with rfl | he'
    · exact hx
    · refine take_pos_of_sorted xs k hp.2 ?_ e he'
      rw [List.countP_cons, if_pos (by simpa using hx)] at hcnt
      omega

/-- C3, amended: an author whose positive and negative counts are both zero
never appears in H3's reported top-5 provided at least 5 authors have a
nonzero emotion total. (With five or more distinct authors but fewer than 5
nonzero totals, `sorted(...)[:5]` still pads the list with zero-count
authors, so the claim's "fewer than 5 distinct authors" condition is the
wrong side condition.) -/
theorem c3_zero_emotion_authors (rows : List Row)
    (h : 5 ≤ (author_emotion_counts rows).countP
      (fun e => decide (0 < e.2.1 + e.2.2))) :
    ∀ e ∈ ranked_authors rows, 0 < e.2.1 + e.2.2 := by
  intro e he
  rw [ranked_authors] at he
  refine take_pos_of_sorted _ 5
    (sortDesc_sorted (fun e => e.2.1 + e.2.2) (author_emotion_counts rows))
    ?_ e he
  rw [(sortDesc_perm (fun e => e.2.1 + e.2.2)
    (author_emotion_counts rows)).countP_eq]
  exact h

/-- Six rows, five of whose authors use an emotion word: the hypothesis of
`c3_zero_emotion_authors` holds and every reported entry has a positive
total. -/
def rows6 : List Row :=
  [mkRow "love" "a", mkRow "hope" "b", mkRow "fear" "c",
   mkRow "pain" "d", mkRow "joy" "e", mkRow "stone" "f"]

/-- C3, witness: the amended theorem applied to `rows6`. -/
theorem c3_zero_emotion_authors_witness :
    5 ≤ (author_emotion_counts rows6).countP
      (fun e => decide (0 < e.2.1 + e.2.2)) ∧
    ∀ e ∈ ranked_authors rows6, 0 < e.2.1 + e.2.2 :=
  ⟨by decide, c3_zero_emotion_authors rows6 (by decide)⟩

/-! ## Rounding bounds -/

theorem round_mono_q {x y : ℚ} (h : x ≤ y) : round x ≤ round y := by
  rw [round_eq, round_eq]
  exact Int.floor_le_floor (by linarith)

theorem roundTo_nonneg {d : Nat} {q : ℚ} (h : 0 ≤ q) : 0 ≤ roundTo d q := by
  rw [roundTo]
  apply div_nonneg _ (by positivity)
  have h1 : (0 : ℤ) ≤ round (q * (10 ^ d : ℚ)) := by
    have h2 := @round_mono_q 0 (q * (10 ^ d : ℚ)) (by positivity)
    simpa using h2
  exact_mod_cast h1

theorem roundTo_le_nat {d : Nat} {q : ℚ} {B : Nat} (h : q ≤ B) :
    roundTo d q ≤ B := by
  rw [roundTo, div_le_iff (by positivity)]
  have h1 : round (q * (10 ^ d : ℚ)) ≤ round (((B * 10 ^ d : Nat) : ℚ)) := by
    apply round_mono_q
    push_cast
    calc q * ((10 : ℚ) ^ d) ≤ (B : ℚ) * 10 ^ d :=
          mul_le_mul_of_nonneg_right h (by positivity)
      _ = _ := by ring
  rw [round_natCast] at h1
  have h2 : (round (q * (10 ^ d : ℚ)) : ℚ) ≤ ((B * 10 ^ d : Nat) : ℚ) := by
    exact_mod_cast h1
  push_cast at h2 ⊢
  linarith

theorem roundTo_zero (d : Nat) : roundTo d 0 = 0 := by
  rw [roundTo]
  simp

theorem roundTo_le_100 {q : ℚ} (h : q ≤ 100) : roundTo 2 q ≤ 100 := by
  have h1 := @roundTo_le_nat 2 q 100 (by exact_mod_cast h)
  exact_mod_cast h1

theorem roundTo_le_one {q : ℚ} (h : q ≤ 1) : roundTo 3 q ≤ 1 := by
  have h1 := @roundTo_le_nat 3 q 1 (by exact_mod_cast h)
  exact_mod_cast h1

/-! ## Claim C6: H2's percentage -/

/-- C6: H2's second-person count never exceeds the token total; the share
is defined as `0.0` when the total is `0` (in particular when no record
matches), the division happens only when the total is positive, and the
reported 2-decimal percentage always lies in `[0, 100]`. -/
theorem c6_h2_share_safe (rows : List Row) :
    second_person_count rows ≤ total_insp_tokens rows ∧
    (total_insp_tokens rows = 0 →
      h2_share rows = 0 ∧ h2_share_reported rows = 0) ∧
    (inspirational_rows rows = [] → h2_share_reported rows = 0) ∧
    (0 < total_insp_tokens rows → h2_share_reported rows =
      roundTo 2 (((second_person_count rows : ℚ) /
        (total_insp_tokens rows : ℚ)) * 100)) ∧
    0 ≤ h2_share_reported rows ∧ h2_share_reported rows ≤ 100 := by
  have hcnt : second_person_count rows ≤ total_insp_tokens rows :=
    List.countP_le_length _
  have hshare_bounds : 0 ≤ h2_share rows ∧ h2_share rows ≤ 100 := by
    rw [h2_share]
    by_cases h0 : total_insp_tokens rows = 0
    · rw [if_pos h0]
      norm_num
    · rw [if_neg h0]
      have hpos : (0 : ℚ) < (total_insp_tokens rows : ℚ) := by
        have := Nat.pos_of_ne_zero h0
        exact_mod_cast this
      constructor
      · positivity
      · have hle : (second_person_count rows : ℚ) ≤
            (total_insp_tokens rows : ℚ) := by exact_mod_cast hcnt
        rw [div_mul_eq_mul_div, div_le_iff hpos]
        linarith
  refine ⟨hcnt, ?_, ?_, ?_, ?_, ?_⟩
  · intro h0
    constructor
    · rw [h2_share, if_pos h0]
    · rw [h2_share_reported, h2_share, if_pos h0, roundTo_zero]
  · intro hnil
    have htok : inspirational_tokens rows = [] := by
      rw [inspirational_tokens, hnil]
      rfl
    have h0 : total_insp_tokens rows = 0 := by
      rw [total_insp_tokens, htok]
      rfl
    rw [h2_share_reported, h2_share, if_pos h0, roundTo_zero]
  · intro hpos
    rw [h2_share_reported, h2_share, if_neg (Nat.pos_iff_ne_zero.mp hpos)]
  · exact roundTo_nonneg hshare_bounds.1
  · exact roundTo_le_100 hshare_bounds.2

/-! ## Claim C7: H5's per-author statistics -/

theorem firstOccs_length_le {α : Type} [DecidableEq α] :
    ∀ l : List α, (firstOccs l).length ≤ l.length
  | [] => le_refl _
  | x :: xs => by
    rw [firstOccs, List.length_cons, List.length_cons]
    exact Nat.succ_le_succ
      (le_trans (List.length_filter_le _ _) (firstOccs_length_le xs))

/-- C7: for every author, H5 reports `total_words` = the number of tokens of
the author's concatenated cleaned quotes (with duplicates), `unique_words` =
the number of distinct token values, diversity `0.0` when there are no
tokens and `round(unique/total, 3)` otherwise, and the diversity always lies
in `[0, 1]`. -/
theorem c7_author_vocab_stats (rows : List Row) (a : List Char) :
    (author_vocab_stats rows a).1 = (authorWords rows a).length ∧
    (author_vocab_stats rows a).2.1 = (firstOccs (authorWords rows a)).length ∧
    ((authorWords rows a).length = 0 → (author_vocab_stats rows a).2.2 = 0) ∧
    (0 < (authorWords rows a).length → (author_vocab_stats rows a).2.2 =
      roundTo 3 (((firstOccs (authorWords rows a)).length : ℚ) /
        ((authorWords rows a).length : ℚ))) ∧
    0 ≤ (author_vocab_stats rows a).2.2 ∧
    (author_vocab_stats rows a).2.2 ≤ 1 := by
  have hq_bounds :
      0 ≤ (if (authorWords rows a).length = 0 then (0 : ℚ)
          else ((firstOccs (authorWords rows a)).length : ℚ) /
            ((authorWords rows a).length : ℚ)) ∧
      (if (authorWords rows a).length = 0 then (0 : ℚ)
          else ((firstOccs (authorWords rows a)).length : ℚ) /
            ((authorWords rows a).length : ℚ)) ≤ 1 := by
    by_cases h0 : (authorWords rows a).length = 0
    · rw [if_pos h0]
      norm_num
    · rw [if_neg h0]
      have hpos : (0 : ℚ) < ((authorWords rows a).length : ℚ) := by
        have := Nat.pos_of_ne_zero h0
        exact_mod_cast this
      constructor
      · positivity
      · rw [div_le_one hpos]
        exact_mod_cast firstOccs_length_le (authorWords rows a)
  refine ⟨rfl, rfl, ?_, ?_, ?_, ?_⟩
  · intro h0
    show roundTo 3 _ = 0
    rw [if_pos h0, roundTo_zero]
  · intro hpos
    show roundTo 3 _ = _
    rw [if_neg (Nat.pos_iff_ne_zero.mp hpos)]
  · exact roundTo_nonneg hq_bounds.1
  · exact roundTo_le_one hq_bounds.2

/-! ## Claim C9: missing optional columns -/

/-- C9: loading never fails on a missing optional column — the table always
has one row per `quote` entry; with `tags` absent every row's tags default
to the empty string and H2 matches zero records (count, total and share all
`0`); with `author` absent every row's author defaults to the empty
string. -/
theorem c9_missing_optional_columns (quotes : List (Option (List Char)))
    (acol tcol : Option (List (List Char))) :
    (loadTable quotes acol tcol).length = quotes.length ∧
    (∀ r ∈ loadTable quotes acol none, r.tags = []) ∧
    inspirational_rows (loadTable quotes acol none) = [] ∧
    second_person_count (loadTable quotes acol none) = 0 ∧
    total_insp_tokens (loadTable quotes acol none) = 0 ∧
    h2_share (loadTable quotes acol none) = 0 ∧
    (∀ r ∈ loadTable quotes none tcol, r.author = []) := by
  have htags : ∀ r ∈ loadTable quotes acol none, r.tags = [] := by
    intro r hr
    rw [loadTable, List.mem_map] at hr
    obtain ⟨i, _, rfl⟩ := hr
    rfl
  have hnil : inspirational_rows (loadTable quotes acol none) = [] := by
    rw [inspirational_rows, List.filter_eq_nil_iff]
    intro r hr
    rw [htags r hr]
    decide
  have htok : inspirational_tokens (loadTable quotes acol none) = [] := by
    rw [inspirational_tokens, hnil]
    rfl
  refine ⟨?_, htags, hnil, ?_, ?_, ?_, ?_⟩
  · rw [loadTable, List.length_map, List.length_range]
  · rw [second_person_count, htok]
    rfl
  · rw [total_insp_tokens, htok]
    rfl
  · have h0 : total_insp_tokens (loadTable quotes acol none) = 0 := by
      rw [total_insp_tokens, htok]
      rfl
    rw [h2_share, if_pos h0]
  · intro r hr
    rw [loadTable, List.mem_map] at hr
    obtain ⟨i, _, rfl⟩ := hr
    rfl

/-! ## Claim C10: determinism of the pipeline -/

/-- C10: the whole pipeline is a pure function of the loaded table: two runs
on equal tables produce equal results — the rewritten table with its
`cleaned_quote` column, H1's top list, H2's match count, token counts and
percentage, H3's ranking, H4's bigram and trigram lists, and H5's per-author
statistics. -/
theorem c10_pipeline_deterministic (t1 t2 : List Row) (h : t1 = t2) :
    pipelineResults t1 = pipelineResults t2 :=
  congrArg pipelineResults h

/-- C10, witness: the determinism theorem applied to a concrete table. -/
theorem c10_pipeline_deterministic_witness :
    pipelineResults rows5 = pipelineResults rows5 :=
  c10_pipeline_deterministic rows5 rows5 rfl

end NLP
